import Mathlib

/-!
Verification of the hathor-core specification against a shallow embedding of
the repository's code.

Bytes are modelled as natural numbers below 256; byte strings as `List Nat`.
Machine integers are `Nat` with explicit bounds; fallible operations return
`Except` or `Option`.

The file is laid out with all definitions first, followed by all theorems.
-/

namespace Hathor

/-! ## Big-endian byte encoding helpers -/

/-- Interpret a byte string as a big-endian natural number. -/
def bytesToNatBE (l : List Nat) : Nat :=
  l.foldl (fun acc b => acc * 256 + b) 0

/-- Big-endian encoding of `n` into exactly `len` bytes (most significant first). -/
def natToBytesBE : Nat → Nat → List Nat
  | 0, _ => []
  | len + 1, n => natToBytesBE len (n / 256) ++ [n % 256]

/-! ## Output value serialization

Modelled from the spec: `output_value_to_bytes` and `bytes_to_output_value`
live in `hathor/transaction/base_transaction.py`, which is not part of the
sources; the spec states that output values in [1, 2^31−1] use a 4-byte
encoding and larger values an 8-byte encoding tagged by a negative sign
(two's complement of the negated value), and that a decoder must reject
8-byte encodings of values that fit in 4 bytes. -/

/-- Largest output value that fits the 4-byte encoding (2^31 − 1). -/
def maxOutputValue32 : Nat := 2 ^ 31 - 1

/-- Largest representable output value (2^63, whose negation still has the
sign bit set in 8-byte two's complement). -/
def maxOutputValue : Nat := 2 ^ 63

/-- Modelled from the spec: serialize an output value, 4 bytes when it is at
most 2^31 − 1, otherwise 8 bytes holding the two's complement of its
negation. -/
def output_value_to_bytes (v : Nat) : List Nat :=
  if v ≤ maxOutputValue32 then natToBytesBE 4 v
  else natToBytesBE 8 (2 ^ 64 - v)

/-- Modelled from the spec: deserialize an output value from the front of a
buffer. A first byte with the high bit set selects the 8-byte signed form,
whose (negated) value must not fit in 4 bytes; otherwise 4 unsigned bytes
are read. Returns the value and the remaining buffer. -/
def bytes_to_output_value (buf : List Nat) : Except String (Nat × List Nat) :=
  if buf.length = 0 then .error "OutOfData"
  else if 128 ≤ buf.headD 0 then
    if 8 ≤ buf.length then
      if 2 ^ 64 - bytesToNatBE (buf.take 8) ≤ maxOutputValue32 then
        .error "Value fits in 4 bytes but is using 8 bytes"
      else
        .ok (2 ^ 64 - bytesToNatBE (buf.take 8), buf.drop 8)
    else .error "OutOfData"
  else
    if 4 ≤ buf.length then
      .ok (bytesToNatBE (buf.take 4), buf.drop 4)
    else .error "OutOfData"

/-! ## Vertex model and canonical byte serialization

Modelled from the spec: the vertex entities and the codec
(`hathor/transaction/base_transaction.py`: `get_struct`,
`get_funds_struct`, `get_graph_struct`, `create_from_struct`) are not part
of the sources; the wire format is fixed bit-exactly by the spec's
"Wire / serialization format" section. The `f64 weight` field is kept as
its raw 8-byte pattern, which the codec moves verbatim. -/

/-- A transaction input: `(tx_id, output_index, script_sig)`. -/
structure TxInput where
  tx_id : List Nat
  index : Nat
  data : List Nat
deriving DecidableEq, Repr

/-- A transaction output: `(value, script, token_data)`. -/
structure TxOutput where
  value : Nat
  script : List Nat
  token_data : Nat
deriving DecidableEq, Repr

/-- A vertex (block or transaction) as serialized on the wire. -/
structure Vertex where
  version : Nat
  tokens : List (List Nat)
  inputs : List TxInput
  outputs : List TxOutput
  weight : List Nat
  timestamp : Nat
  parents : List (List Nat)
  nonce : Nat
deriving DecidableEq, Repr

/-- Input wire form: `32-byte tx_id | u8 index | u16 script_sig_len | bytes`. -/
def serializeInput (i : TxInput) : List Nat :=
  i.tx_id ++ natToBytesBE 1 i.index ++ natToBytesBE 2 i.data.length ++ i.data

/-- Output wire form: `value (4 or 8 bytes) | u8 token_data | u16 script_len | bytes`. -/
def serializeOutput (o : TxOutput) : List Nat :=
  output_value_to_bytes o.value ++ natToBytesBE 1 o.token_data ++
    natToBytesBE 2 o.script.length ++ o.script

/-- `funds_struct`: `u16 version | u8 tokens_len | {32-byte token_uid}× |
u8 inputs_len | {input}× | u8 outputs_len | {output}×`. -/
def get_funds_struct (v : Vertex) : List Nat :=
  natToBytesBE 2 v.version ++
  natToBytesBE 1 v.tokens.length ++ v.tokens.flatten ++
  natToBytesBE 1 v.inputs.length ++ (v.inputs.map serializeInput).flatten ++
  natToBytesBE 1 v.outputs.length ++ (v.outputs.map serializeOutput).flatten

/-- `graph_struct`: `f64 weight | u64 timestamp | u8 parents_len | {32-byte parent}×`. -/
def get_graph_struct (v : Vertex) : List Nat :=
  v.weight ++ natToBytesBE 8 v.timestamp ++
  natToBytesBE 1 v.parents.length ++ v.parents.flatten

/-- Canonical serialization: `funds ‖ graph ‖ nonce` (16-byte nonce). -/
def get_struct (v : Vertex) : List Nat :=
  get_funds_struct v ++ get_graph_struct v ++ natToBytesBE 16 v.nonce

/-- Read exactly `n` bytes from the front of the buffer. -/
def readBytes (n : Nat) (buf : List Nat) : Option (List Nat × List Nat) :=
  if n ≤ buf.length then some (buf.take n, buf.drop n) else none

/-- Read an `n`-byte big-endian natural number. -/
def readNatBE (n : Nat) (buf : List Nat) : Option (Nat × List Nat) :=
  (readBytes n buf).bind fun br => some (bytesToNatBE br.1, br.2)

/-- Run the element parser `p` exactly `n` times. -/
def readList {α : Type} (p : List Nat → Option (α × List Nat)) :
    Nat → List Nat → Option (List α × List Nat)
  | 0, buf => some ([], buf)
  | n + 1, buf =>
    (p buf).bind fun ar =>
      (readList p n ar.2).bind fun br =>
        some (ar.1 :: br.1, br.2)

/-- Parse one input from the front of the buffer. -/
def parseInput (buf : List Nat) : Option (TxInput × List Nat) :=
  (readBytes 32 buf).bind fun a =>
    (readNatBE 1 a.2).bind fun b =>
      (readNatBE 2 b.2).bind fun c =>
        (readBytes c.1 c.2).bind fun d =>
          some (⟨a.1, b.1, d.1⟩, d.2)

/-- Parse one output from the front of the buffer. -/
def parseOutput (buf : List Nat) : Option (TxOutput × List Nat) :=
  (bytes_to_output_value buf).toOption.bind fun a =>
    (readNatBE 1 a.2).bind fun b =>
      (readNatBE 2 b.2).bind fun c =>
        (readBytes c.1 c.2).bind fun d =>
          some (⟨a.1, d.1, b.1⟩, d.2)

/-- Parse the whole canonical serialization back into a vertex, requiring
the buffer to be fully consumed. -/
def create_from_struct (buf : List Nat) : Option Vertex :=
  (readNatBE 2 buf).bind fun ver =>
    (readNatBE 1 ver.2).bind fun ntok =>
      (readList (readBytes 32) ntok.1 ntok.2).bind fun toks =>
        (readNatBE 1 toks.2).bind fun nin =>
          (readList parseInput nin.1 nin.2).bind fun ins =>
            (readNatBE 1 ins.2).bind fun nout =>
              (readList parseOutput nout.1 nout.2).bind fun outs =>
                (readBytes 8 outs.2).bind fun w =>
                  (readNatBE 8 w.2).bind fun ts =>
                    (readNatBE 1 ts.2).bind fun npar =>
                      (readList (readBytes 32) npar.1 npar.2).bind fun pars =>
                        (readNatBE 16 pars.2).bind fun non =>
                          if non.2 = [] then
                            some ⟨ver.1, toks.1, ins.1, outs.1, w.1, ts.1,
                              pars.1, non.1⟩
                          else none

/-- A byte string of exactly `n` genuine bytes. -/
def IsByteString (n : Nat) (l : List Nat) : Prop :=
  l.length = n ∧ ∀ b ∈ l, b < 256

instance (n : Nat) (l : List Nat) : Decidable (IsByteString n l) := by
  unfold IsByteString
  infer_instance

/-- Well-formedness of an input for the wire format. -/
def WFInput (i : TxInput) : Prop :=
  IsByteString 32 i.tx_id ∧ i.index < 256 ∧
  i.data.length < 2 ^ 16 ∧ ∀ b ∈ i.data, b < 256

instance (i : TxInput) : Decidable (WFInput i) := by
  unfold WFInput
  infer_instance

/-- Well-formedness of an output for the wire format. -/
def WFOutput (o : TxOutput) : Prop :=
  1 ≤ o.value ∧ o.value ≤ maxOutputValue ∧ o.token_data < 256 ∧
  o.script.length < 2 ^ 16 ∧ ∀ b ∈ o.script, b < 256

instance (o : TxOutput) : Decidable (WFOutput o) := by
  unfold WFOutput
  infer_instance

/-- Well-formedness of a vertex for the wire format. -/
def WFVertex (v : Vertex) : Prop :=
  v.version < 2 ^ 16 ∧
  v.tokens.length < 256 ∧ (∀ t ∈ v.tokens, IsByteString 32 t) ∧
  v.inputs.length < 256 ∧ (∀ i ∈ v.inputs, WFInput i) ∧
  v.outputs.length < 256 ∧ (∀ o ∈ v.outputs, WFOutput o) ∧
  IsByteString 8 v.weight ∧
  v.timestamp < 2 ^ 64 ∧
  v.parents.length < 256 ∧ (∀ p ∈ v.parents, IsByteString 32 p) ∧
  v.nonce < 2 ^ 128

instance (v : Vertex) : Decidable (WFVertex v) := by
  unfold WFVertex
  infer_instance

/-! ## Timestamp validation

Modelled from the spec: `verify_parents` / `verify_inputs` live in
`hathor/transaction/base_transaction.py` and `transaction.py`, which are
not part of the sources; the spec's timestamp rule says a vertex's
timestamp is strictly greater than the timestamp of every parent and of
every input's spent tx, failing with `TimestampError` otherwise. -/

/-- The timestamp-relevant fragment of a transaction: its own timestamp,
its parents' timestamps and its inputs' spent-tx timestamps, as resolved
through storage. -/
structure TimedTx where
  timestamp : Nat
  parentTimestamps : List Nat
  spentTimestamps : List Nat
deriving DecidableEq, Repr

/-- Modelled from the spec: the parent-timestamp check of `verify_parents`. -/
def verify_parents_timestamps (tx : TimedTx) : Except String Unit :=
  if tx.parentTimestamps.all (· < tx.timestamp) then .ok ()
  else .error "TimestampError"

/-- Modelled from the spec: the spent-tx-timestamp check of `verify_inputs`. -/
def verify_inputs_timestamps (tx : TimedTx) : Except String Unit :=
  if tx.spentTimestamps.all (· < tx.timestamp) then .ok ()
  else .error "TimestampError"

/-- Both timestamp checks run by validation, parents first. -/
def verify_timestamps (tx : TimedTx) : Except String Unit :=
  (verify_parents_timestamps tx).bind fun _ => verify_inputs_timestamps tx

/-! ## Script VM: OP_CHECKMULTISIG

Modelled from the spec: `op_checkmultisig` lives in
`hathor/transaction/scripts.py`, which is not part of the sources; the
spec fixes its semantics as M-of-N with signatures required in the same
order as their matching public keys, a mismatched ordering pushing 0
rather than raising. ECDSA verification is abstracted as a boolean
relation between signature and public-key byte strings. -/

/-- A stack item of the script VM: an integer or a byte string. -/
inductive StackItem where
  | num : Nat → StackItem
  | blob : List Nat → StackItem
deriving DecidableEq, Repr

/-- Pop the top of the stack as an integer count. -/
def popCount : List StackItem → Except String (Nat × List StackItem)
  | [] => .error "MissingStackItems"
  | .num n :: rest => .ok (n, rest)
  | .blob _ :: _ => .error "InvalidStackData"

/-- Pop `n` byte strings off the stack. -/
def popBlobs : Nat → List StackItem → Except String (List (List Nat) × List StackItem)
  | 0, st => .ok ([], st)
  | _ + 1, [] => .error "MissingStackItems"
  | _ + 1, .num _ :: _ => .error "InvalidStackData"
  | n + 1, .blob b :: rest =>
    (popBlobs n rest).map fun p => (b :: p.1, p.2)

/-- Greedy in-order matching of signatures against public keys: each
signature consumes public keys from the current position until one
verifies it; a signature that exhausts the keys fails the whole match. -/
def matchSigs (verify : List Nat → List Nat → Bool) :
    List (List Nat) → List (List Nat) → Bool
  | [], _ => true
  | _ :: _, [] => false
  | s :: ss, k :: ks =>
    if verify s k then matchSigs verify ss ks else matchSigs verify (s :: ss) ks

/-- Modelled from the spec: `op_checkmultisig`. Pops the public-key count,
the public keys, the signature count and the signatures (stack top first),
then pushes 1 when the signatures, in stack order, match the public keys
in order, and 0 otherwise. -/
def op_checkmultisig (verify : List Nat → List Nat → Bool)
    (stack : List StackItem) : Except String (List StackItem) :=
  (popCount stack).bind fun nk =>
    (popBlobs nk.1 nk.2).bind fun pks =>
      (popCount pks.2).bind fun ns =>
        (popBlobs ns.1 ns.2).bind fun sigs =>
          .ok ((if matchSigs verify sigs.1.reverse pks.1.reverse
                then StackItem.num 1 else StackItem.num 0) :: sigs.2)

/-- The exact-match abstraction of signature verification: a signature is
valid for exactly the public key whose bytes it designates. -/
def verifyEq (s k : List Nat) : Bool := s == k

/-- Build the checkmultisig stack (top of stack at the head): public-key
count, public keys, signature count, signatures, rest. Lists `pks` and
`sigs` are given bottom-up, i.e. in script push order. -/
def multisigStack (pks sigs : List (List Nat)) (rest : List StackItem) :
    List StackItem :=
  StackItem.num pks.length :: (pks.reverse.map StackItem.blob ++
    (StackItem.num sigs.length :: (sigs.reverse.map StackItem.blob ++ rest)))

/-! ## Compact storage (`hathor/transaction/storage/compact_storage.py`)

Embedded from the source. `generate_filepath` is injective in the tx hash
(hex digest plus a subfolder derived from it), so the persisted files are
modelled as a list of records keyed by hash. Vertex contents are abstracted
to an opaque payload: the storage logic never inspects them. -/

/-- A stored transaction: its hash and an abstract payload standing for
its serialized content and metadata. -/
structure Tx where
  hash : Nat
  payload : Nat
deriving DecidableEq, Repr

/-- Observable state of a `TransactionCompactStorage`: resident genesis
vertices, persisted files, and the weak-reference cache. -/
structure StorageState where
  genesisTxs : List Tx
  files : List Tx
  weakrefs : List Tx
deriving DecidableEq, Repr

/-- `get_genesis`: look a hash up among the resident genesis vertices. -/
def get_genesis (s : StorageState) (h : Nat) : Option Tx :=
  s.genesisTxs.find? (fun t => t.hash == h)

/-- `get_transaction_from_weakref`. -/
def get_transaction_from_weakref (s : StorageState) (h : Nat) : Option Tx :=
  s.weakrefs.find? (fun t => t.hash == h)

/-- The persisted record at `generate_filepath(h)`, if the file exists. -/
def fileRecord (s : StorageState) (h : Nat) : Option Tx :=
  s.files.find? (fun t => t.hash == h)

/-- `tx.is_genesis` as this storage resolves it. -/
def is_genesis (s : StorageState) (tx : Tx) : Bool :=
  (get_genesis s tx.hash).isSome

/-- `_save_transaction`: genesis txs are kept in memory and not written;
otherwise the record is written to its filepath. -/
def save_transaction_file (s : StorageState) (tx : Tx) : StorageState :=
  if is_genesis s tx then s
  else { s with files := tx :: s.files }

/-- `save_transaction`: the base-class bookkeeping touches neither files
nor the cache; genesis returns before writing; otherwise the file is
written and the object cached. -/
def save_transaction (s : StorageState) (tx : Tx) : StorageState :=
  if is_genesis s tx then s
  else
    let s1 := save_transaction_file s tx
    { s1 with weakrefs := tx :: s1.weakrefs }

/-- `transaction_exists`: a genesis hash, or a file on disk. -/
def transaction_exists (s : StorageState) (h : Nat) : Bool :=
  (get_genesis s h).isSome || (fileRecord s h).isSome

/-- `get_transaction`: genesis first, then the weakref cache, then disk
(adding the loaded object to the cache); otherwise
`TransactionDoesNotExist`. Returns the possibly-updated state. -/
def get_transaction (s : StorageState) (h : Nat) :
    Except String (Tx × StorageState) :=
  match get_genesis s h with
  | some g => .ok (g, s)
  | none =>
    match get_transaction_from_weakref s h with
    | some tx => .ok (tx, s)
    | none =>
      match fileRecord s h with
      | some tx => .ok (tx, { s with weakrefs := tx :: s.weakrefs })
      | none => .error "TransactionDoesNotExist"

/-! ## Rate limiter (`hathor/p2p/rate_limiter.py`)

Embedded from the source. The reactor clock is passed in explicitly as the
`now` argument; clock values and bucket levels are rationals (the source
uses floats). -/

/-- `RateLimiter` state: per-key limits `(max_hits, window_seconds)` and
per-key last hit `(hits, latest_time)`. -/
structure RateLimiterState where
  keys : List (String × Nat × Nat)
  hits : List (String × ℚ × ℚ)
deriving DecidableEq, Repr

/-- Dictionary assignment `d[k] = v` for an association list. -/
def setAssoc {α : Type} (l : List (String × α)) (k : String) (v : α) :
    List (String × α) :=
  (k, v) :: l.filter (fun p => p.1 != k)

/-- `RateLimiter.add_hit`: leaky bucket. Returns the allowance and the new
state. -/
def add_hit (rl : RateLimiterState) (key : String) (weight : Nat) (now : ℚ) :
    Bool × RateLimiterState :=
  match List.lookup key rl.keys with
  | none => (true, rl)
  | some (max_hits, window_seconds) =>
    match List.lookup key rl.hits with
    | none => (true, { rl with hits := setAssoc rl.hits key ((weight : ℚ), now) })
    | some (hits, latest_time) =>
      let dt : ℚ := now - latest_time
      let leaked_hits : ℤ := ⌊dt * max_hits / window_seconds⌋
      let remainder : ℚ := dt * max_hits - leaked_hits * window_seconds
      let new_time : ℚ := latest_time + dt - remainder / max_hits
      let new_hits0 : ℚ := hits - leaked_hits
      let new_hits1 : ℚ := if new_hits0 < 0 then 0 else new_hits0
      let new_hits2 : ℚ := new_hits1 + weight
      if max_hits < new_hits2 then
        (false, { rl with hits := setAssoc rl.hits key ((max_hits : ℚ), new_time) })
      else
        (true, { rl with hits := setAssoc rl.hits key (new_hits2, new_time) })

/-- Fold a sequence of `(key, weight, time)` hits through `add_hit`. -/
def run_hits (rl : RateLimiterState) (ops : List (String × Nat × ℚ)) :
    RateLimiterState :=
  ops.foldl (fun s op => (add_hit s op.1 op.2.1 op.2.2).2) rl

/-- Every recorded bucket is within its key's limit. -/
def hitsBounded (rl : RateLimiterState) : Bool :=
  rl.hits.all fun p =>
    match List.lookup p.1 rl.keys with
    | some (m, _) => decide (p.2.1 ≤ (m : ℚ))
    | none => true

/-- Every op's weight is within its key's limit (unlimited keys are free). -/
def opsWeightsOk (keys : List (String × Nat × Nat))
    (ops : List (String × Nat × ℚ)) : Bool :=
  ops.all fun op =>
    match List.lookup op.1 keys with
    | some (m, _) => decide (op.2.1 ≤ m)
    | none => true

/-! ## Consensus engine

Modelled from the spec: the consensus engine (`hathor/consensus.py`) is not
part of the sources, only its tests; the model follows the spec's
"Consensus Engine" section. Scores and accumulated weights, which the spec
keeps in log scale via `sum_weights`, are modelled as the equivalent total
work `Σ 2^weight` — `log2` is strictly monotone, so every comparison the
engine makes is unchanged. A vertex is voided by its own hash when it loses
(or ties) a conflict or is dropped from the best chain by a reorg; full
`voided_by` sets are derived by propagating these own-hash marks along the
verification DAG, as the spec prescribes. -/

/-- A vertex as the consensus engine sees it: block flag, weight, parents
(verification DAG) and spent outputs `(tx_id, index)` (funds DAG). -/
structure VertexInfo where
  hash : Nat
  isBlock : Bool
  weight : Nat
  parents : List Nat
  spends : List (Nat × Nat)
deriving DecidableEq, Repr

/-- One breadth step toward ancestors: add all parents of the accumulated
set. -/
def coneStep (vs : List VertexInfo) (acc : List Nat) : List Nat :=
  acc ++ (((acc.map (fun h =>
    match vs.find? (fun v => v.hash == h) with
    | some v => v.parents
    | none => [])).flatten).filter (fun p => !acc.contains p)).dedup

def pastConeAux (vs : List VertexInfo) : Nat → List Nat → List Nat
  | 0, acc => acc
  | n + 1, acc => pastConeAux vs n (coneStep vs acc)

/-- All ancestors of `h` through the verification DAG, `h` included. -/
def pastCone (vs : List VertexInfo) (h : Nat) : List Nat :=
  pastConeAux vs vs.length [h]

/-- Target work of a vertex: `2^weight`. -/
def workOf (v : VertexInfo) : Nat := 2 ^ v.weight

/-- A block's score as total work of its past cone (the spec's log-scale
`score` is `log2` of this). -/
def score (vs : List VertexInfo) (h : Nat) : Nat :=
  (vs.filter (fun v => (pastCone vs h).contains v.hash)).foldl
    (fun a v => a + workOf v) 0

/-- A vertex's accumulated weight as total work: its own work plus that of
every vertex having it in its past cone. -/
def accWork (vs : List VertexInfo) (h : Nat) : Nat :=
  (vs.filter (fun v => (pastCone vs v.hash).contains h)).foldl
    (fun a v => a + workOf v) 0

/-- The vertices spending an output also spent by `t`. -/
def conflictsOf (vs : List VertexInfo) (t : VertexInfo) : List Nat :=
  (vs.filter (fun v => v.hash != t.hash &&
    v.spends.any (fun s => t.spends.contains s))).map (·.hash)

/-- A conflicting vertex is voided unless it has strictly greatest
accumulated weight among its conflicts (ties void everyone). -/
def conflictLoses (vs : List VertexInfo) (t : VertexInfo) : Bool :=
  (conflictsOf vs t).any (fun c => accWork vs t.hash ≤ accWork vs c)

/-- Whether `h` names a block of `vs`. -/
def isBlockHash (vs : List VertexInfo) (h : Nat) : Bool :=
  match vs.find? (fun v => v.hash == h) with
  | some v => v.isBlock
  | none => false

/-- Consensus engine state: the arrived vertices in order, the vertices
voided by their own hash, and the best chain head. -/
structure ConsensusState where
  vertices : List VertexInfo
  ownVoided : List Nat
  bestHead : Option Nat
deriving DecidableEq, Repr

/-- Derived metadata: `voided_by` of `h` is every own-hash mark in `h`'s
past cone (listed in arrival order). -/
def voided_by_of (st : ConsensusState) (h : Nat) : List Nat :=
  (st.vertices.filter (fun a => st.ownVoided.contains a.hash &&
    (pastCone st.vertices h).contains a.hash)).map (·.hash)

/-- A vertex is executed iff its `voided_by` is empty. -/
def is_executed (st : ConsensusState) (h : Nat) : Bool :=
  voided_by_of st h == []

/-- Transaction arrival: detect conflicts against the spent outputs,
then re-run the void decision for the new tx and its conflict set. -/
def processTx (st : ConsensusState) (t : VertexInfo) : ConsensusState :=
  let vs := st.vertices ++ [t]
  let parties := t.hash :: conflictsOf vs t
  let newlyVoided := parties.filter (fun x =>
    (match vs.find? (fun v => v.hash == x) with
     | some vx => conflictLoses vs vx
     | none => false) && !st.ownVoided.contains x)
  { vertices := vs, ownVoided := st.ownVoided ++ newlyVoided,
    bestHead := st.bestHead }

/-- Block arrival: score comparison with the best head; a strictly higher
score triggers a reorg that voids the dropped chain, clears the new chain,
and resolves conflicts in favor of the transactions the new chain
confirms; otherwise the head is unchanged. -/
def processBlock (st : ConsensusState) (b : VertexInfo) : ConsensusState :=
  let vs := st.vertices ++ [b]
  match st.bestHead with
  | none => { vertices := vs, ownVoided := st.ownVoided, bestHead := some b.hash }
  | some head =>
    if score vs head < score vs b.hash then
      let newChain := (pastCone vs b.hash).filter (fun a => isBlockHash vs a)
      let oldChain := (pastCone vs head).filter (fun a => isBlockHash vs a)
      let demoted := oldChain.filter (fun a => !newChain.contains a)
      let winners := (pastCone vs b.hash).filter (fun a =>
        !isBlockHash vs a && st.ownVoided.contains a)
      let losers := (winners.map (fun a =>
        match vs.find? (fun v => v.hash == a) with
        | some va => conflictsOf vs va
        | none => [])).flatten
      { vertices := vs,
        ownVoided := ((st.ownVoided.filter (fun a =>
          !newChain.contains a && !winners.contains a)) ++ demoted ++
            losers).dedup,
        bestHead := some b.hash }
    else
      { vertices := vs, ownVoided := st.ownVoided, bestHead := st.bestHead }

def processVertex (st : ConsensusState) (v : VertexInfo) : ConsensusState :=
  if v.isBlock then processBlock st v else processTx st v

/-- Run the engine over a DAG given in arrival order. -/
def runConsensus (dag : List VertexInfo) : ConsensusState :=
  dag.foldl processVertex ⟨[], [], none⟩

/-- The low-weight-confirmation scenario: a genesis block (hash 0, weight
30) and two genesis txs (1, 2); a best chain of blocks 10 and 11 (weight
30); conflicting txs 20 (T1) and 21 (T2) both spending output 0 of tx 1;
and block 30 (B) of weight 2 confirming T2. -/
def scenarioDag : List VertexInfo :=
  [⟨0, true, 30, [], []⟩,
   ⟨1, false, 20, [], []⟩,
   ⟨2, false, 20, [], []⟩,
   ⟨10, true, 30, [0, 1, 2], []⟩,
   ⟨11, true, 30, [10, 1, 2], []⟩,
   ⟨20, false, 20, [1, 2], [(1, 0)]⟩,
   ⟨21, false, 20, [1, 2], [(1, 0)]⟩,
   ⟨30, true, 2, [10, 21, 2], []⟩]

/-! ## Difficulty adjustment (`hathor/difficulty.py`)

`HTR.next_weight` is embedded from the source over exact reals (the source
computes with floats). Blocks are `(timestamp, weight)` pairs, newest
first. `sum_weights` is imported by the source from `hathor.transaction`,
which is not under the sources; it is modelled from the spec's formula
`sum_weights(a,b) = max(a,b) + log2(1 + 2^(−|a−b|))`. -/

/-- Modelled from the spec: `sum_weights`, the overflow-stable log-scale
addition. -/
noncomputable def sum_weights (a b : ℝ) : ℝ :=
  max a b + Real.logb 2 (1 + 2 ^ (-|a - b|))

/-- `HTR.T`, the target spacing in seconds. -/
def HTR_T : Nat := 30

/-- `HTR.N`, the window size in blocks. -/
def HTR_N : Nat := 20

/-- `HTR.MIN_WEIGHT`. -/
noncomputable def HTR_MIN_WEIGHT : ℝ := 21

/-- `HTR.MAX_DW`. -/
noncomputable def HTR_MAX_DW : ℝ := 0.25

/-- `HTR.next_weight` from `src/hathor/difficulty.py`: take the first `N`
blocks of the iterator, reverse to oldest-first, and when at least two are
present fold `sum_weights` over the weights starting from `0.0`, subtract
`log2(dt)` (with `dt` clamped to at least 1), add `log2(T)`, clamp the
change against the newest weight to `MAX_DW`, and clamp to `MIN_WEIGHT`. -/
noncomputable def HTR_next_weight (blocks : List (ℤ × ℝ)) : ℝ :=
  let tw := (blocks.take HTR_N).reverse
  if tw.length < 2 then HTR_MIN_WEIGHT
  else
    let timestamps := tw.map (·.1)
    let weights := tw.map (·.2)
    let dt0 := timestamps.getLastD 0 - timestamps.headD 0
    let dt : ℤ := if dt0 < 1 then 1 else dt0
    let logH := weights.foldl sum_weights 0
    let w := logH - Real.logb 2 (dt : ℝ) + Real.logb 2 (HTR_T : ℝ)
    let dw := w - weights.getLastD 0
    let w1 :=
      if HTR_MAX_DW < dw then weights.getLastD 0 + HTR_MAX_DW
      else if dw < -HTR_MAX_DW then weights.getLastD 0 - HTR_MAX_DW
      else w
    if w1 < HTR_MIN_WEIGHT then HTR_MIN_WEIGHT else w1

/-- The claim's closed formula, word for word: `w_next = W − log2(dt) +
log2(T)` with `W = log2(Σ 2^{w_i})`, `dt = t_newest − t_oldest` clamped to
at least 1, then the `MAX_DW` clamp relative to the newest block's weight,
then the `MIN_WEIGHT` clamp. -/
noncomputable def next_weight_claimed (blocks : List (ℤ × ℝ)) : ℝ :=
  let tw := blocks.take HTR_N
  let W := Real.logb 2 ((tw.map (fun p => (2 : ℝ) ^ p.2)).sum)
  let w_last := (tw.headD (0, 0)).2
  let dt : ℤ := max 1 ((tw.headD (0, 0)).1 - (tw.getLastD (0, 0)).1)
  let w0 := W - Real.logb 2 (dt : ℝ) + Real.logb 2 (HTR_T : ℝ)
  max HTR_MIN_WEIGHT (max (w_last - HTR_MAX_DW) (min (w_last + HTR_MAX_DW) w0))

/-- The amended formula: as the claim states it, except that the window
sum carries the fold's `0.0` seed, `W = log2(1 + Σ 2^{w_i})`. -/
noncomputable def next_weight_amended (blocks : List (ℤ × ℝ)) : ℝ :=
  let tw := blocks.take HTR_N
  let W := Real.logb 2 (1 + (tw.map (fun p => (2 : ℝ) ^ p.2)).sum)
  let w_last := (tw.headD (0, 0)).2
  let dt : ℤ := max 1 ((tw.headD (0, 0)).1 - (tw.getLastD (0, 0)).1)
  let w0 := W - Real.logb 2 (dt : ℝ) + Real.logb 2 (HTR_T : ℝ)
  max HTR_MIN_WEIGHT (max (w_last - HTR_MAX_DW) (min (w_last + HTR_MAX_DW) w0))

/-- A concrete two-block window, newest first: timestamps 100 and 40
(so `dt = 60`), both of weight 25. -/
def cexBlocks : List (ℤ × ℝ) := [(100, 25), (40, 25)]

/-! # Theorems -/

/-! ## Byte encoding lemmas -/

theorem natToBytesBE_length (len n : Nat) : (natToBytesBE len n).length = len := by
  induction len generalizing n with
  | zero => rfl
  | succ k ih => simp [natToBytesBE, ih]

theorem bytesToNatBE_append_singleton (l : List Nat) (b : Nat) :
    bytesToNatBE (l ++ [b]) = bytesToNatBE l * 256 + b := by
  simp [bytesToNatBE, List.foldl_append]

theorem bytesToNatBE_natToBytesBE (len n : Nat) (h : n < 256 ^ len) :
    bytesToNatBE (natToBytesBE len n) = n := by
  induction len generalizing n with
  | zero =>
    interval_cases n
    rfl
  | succ k ih =>
    have hdiv : n / 256 < 256 ^ k := by
      rw [Nat.div_lt_iff_lt_mul (by norm_num)]
      calc n < 256 ^ (k + 1) := h
        _ = 256 ^ k * 256 := by ring
    rw [natToBytesBE, bytesToNatBE_append_singleton, ih _ hdiv]
    have := Nat.div_add_mod n 256
    omega

theorem natToBytesBE_head (len n : Nat) (h : 0 < len) :
    (natToBytesBE len n).head? = some (n / 256 ^ (len - 1) % 256) := by
  induction len generalizing n with
  | zero => omega
  | succ k ih =>
    match k, ih with
    | 0, _ => simp [natToBytesBE]
    | k' + 1, ih =>
      rw [natToBytesBE, List.head?_append_of_ne_nil]
      · rw [ih _ (Nat.succ_pos k')]
        congr 2
        rw [Nat.div_div_eq_div_mul]
        congr 1
        simp [pow_succ]
        ring
      · have := natToBytesBE_length (k' + 1) (n / 256)
        intro hnil
        rw [hnil] at this
        simp at this

theorem headD_of_head? (l : List Nat) (c : Nat) (h : l.head? = some c) :
    l.headD 0 = c := by
  cases l <;> simp_all

theorem output_value_to_bytes_roundtrip (v : Nat) (rest : List Nat)
    (h1 : 1 ≤ v) (h2 : v ≤ maxOutputValue) :
    bytes_to_output_value (output_value_to_bytes v ++ rest) = .ok (v, rest) := by
  by_cases hv : v ≤ maxOutputValue32
  · have hlt : v < 2 ^ 31 := by
      unfold maxOutputValue32 at hv
      omega
    have hlen : (natToBytesBE 4 v).length = 4 := natToBytesBE_length 4 v
    have hlen' : (natToBytesBE 4 v ++ rest).length = 4 + rest.length := by
      simp [hlen]
    have hhead : (natToBytesBE 4 v ++ rest).head? = some (v / 256 ^ 3 % 256) := by
      rw [List.head?_append_of_ne_nil]
      · exact natToBytesBE_head 4 v (by norm_num)
      · intro hnil
        rw [hnil] at hlen
        simp at hlen
    have hheadD := headD_of_head? _ _ hhead
    have hsmall : v / 256 ^ 3 % 256 < 128 := by
      have : v / 256 ^ 3 < 128 := by
        rw [Nat.div_lt_iff_lt_mul (by norm_num)]
        calc v < 2 ^ 31 := hlt
          _ ≤ 128 * 256 ^ 3 := by norm_num
      omega
    rw [output_value_to_bytes, if_pos hv, bytes_to_output_value]
    rw [if_neg (by omega), hheadD, if_neg (by omega), if_pos (by omega)]
    rw [List.take_append_of_le_length (by omega), List.take_of_length_le (by omega)]
    rw [List.drop_append_of_le_length (by omega), List.drop_of_length_le (by omega)]
    rw [bytesToNatBE_natToBytesBE 4 v (by
      calc v < 2 ^ 31 := hlt
        _ ≤ 256 ^ 4 := by norm_num)]
    simp
  · have hv' : 2 ^ 31 ≤ v := by
      unfold maxOutputValue32 at hv
      omega
    have h64 : v ≤ 2 ^ 63 := h2
    have hulo : 2 ^ 63 ≤ 2 ^ 64 - v := by omega
    have huhi : 2 ^ 64 - v < 2 ^ 64 := by omega
    generalize hu : 2 ^ 64 - v = u at hulo huhi
    have hlen : (natToBytesBE 8 u).length = 8 := natToBytesBE_length 8 u
    have hlen' : (natToBytesBE 8 u ++ rest).length = 8 + rest.length := by
      simp [hlen]
    have hhead : (natToBytesBE 8 u ++ rest).head? = some (u / 256 ^ 7 % 256) := by
      rw [List.head?_append_of_ne_nil]
      · exact natToBytesBE_head 8 u (by norm_num)
      · intro hnil
        rw [hnil] at hlen
        simp at hlen
    have hheadD := headD_of_head? _ _ hhead
    have hbig : 128 ≤ u / 256 ^ 7 % 256 := by
      have hlo : 128 ≤ u / 256 ^ 7 := by
        calc 128 = 2 ^ 63 / 256 ^ 7 := by norm_num
          _ ≤ u / 256 ^ 7 := Nat.div_le_div_right hulo
      have hhi : u / 256 ^ 7 < 256 := by
        rw [Nat.div_lt_iff_lt_mul (by norm_num)]
        calc u < 2 ^ 64 := huhi
          _ = 256 * 256 ^ 7 := by norm_num
      omega
    rw [output_value_to_bytes, if_neg hv, bytes_to_output_value, hu]
    rw [if_neg (by omega), hheadD, if_pos hbig, if_pos (by omega)]
    rw [List.take_append_of_le_length (by omega), List.take_of_length_le (by omega)]
    rw [List.drop_append_of_le_length (by omega), List.drop_of_length_le (by omega)]
    rw [bytesToNatBE_natToBytesBE 8 u (by
      calc u < 2 ^ 64 := huhi
        _ ≤ 256 ^ 8 := by norm_num)]
    rw [if_neg (by unfold maxOutputValue32; omega)]
    congr 2
    omega

/-! ## Parser round-trip lemmas -/

theorem readBytes_exact (n : Nat) (l r : List Nat) (h : l.length = n) :
    readBytes n (l ++ r) = some (l, r) := by
  subst h
  rw [readBytes, if_pos (by simp)]
  rw [List.take_left, List.drop_left]

theorem readNatBE_encode (n v : Nat) (r : List Nat) (h : v < 256 ^ n) :
    readNatBE n (natToBytesBE n v ++ r) = some (v, r) := by
  rw [readNatBE, readBytes_exact _ _ _ (natToBytesBE_length n v)]
  simp only [Option.some_bind]
  rw [bytesToNatBE_natToBytesBE n v h]

theorem readList_encode {α : Type} (p : List Nat → Option (α × List Nat))
    (ser : α → List Nat) (items : List α) (rest : List Nat)
    (h : ∀ a ∈ items, ∀ r, p (ser a ++ r) = some (a, r)) :
    readList p items.length ((items.map ser).flatten ++ rest) = some (items, rest) := by
  induction items with
  | nil => simp [readList]
  | cons a tl ih =>
    simp only [List.map_cons, List.flatten_cons, List.length_cons, List.append_assoc]
    rw [readList, h a (by simp)]
    simp only [Option.some_bind]
    rw [ih (fun x hx r => h x (by simp [hx]) r)]
    rfl

theorem parseInput_round (i : TxInput) (r : List Nat) (h : WFInput i) :
    parseInput (serializeInput i ++ r) = some (i, r) := by
  obtain ⟨⟨hlen, _⟩, hidx, hdlen, _⟩ := h
  rw [parseInput, serializeInput]
  simp only [List.append_assoc]
  rw [readBytes_exact _ _ _ hlen]
  simp only [Option.some_bind]
  rw [readNatBE_encode 1 _ _ (by norm_num; omega)]
  simp only [Option.some_bind]
  rw [readNatBE_encode 2 _ _ (by norm_num at hdlen ⊢; omega)]
  simp only [Option.some_bind]
  rw [readBytes_exact _ _ _ rfl]
  rfl

theorem parseOutput_round (o : TxOutput) (r : List Nat) (h : WFOutput o) :
    parseOutput (serializeOutput o ++ r) = some (o, r) := by
  obtain ⟨hv1, hv2, htd, hslen, _⟩ := h
  rw [parseOutput, serializeOutput]
  simp only [List.append_assoc]
  rw [output_value_to_bytes_roundtrip _ _ hv1 hv2]
  simp only [Except.toOption, Option.some_bind]
  rw [readNatBE_encode 1 _ _ (by norm_num; omega)]
  simp only [Option.some_bind]
  rw [readNatBE_encode 2 _ _ (by norm_num at hslen ⊢; omega)]
  simp only [Option.some_bind]
  rw [readBytes_exact _ _ _ rfl]
  rfl

theorem readNatBE_encode_nil (n v : Nat) (h : v < 256 ^ n) :
    readNatBE n (natToBytesBE n v) = some (v, []) := by
  have := readNatBE_encode n v [] h
  rwa [List.append_nil] at this

set_option maxHeartbeats 2000000 in
/-- C4: deserializing the canonical byte serialization of a well-formed
vertex yields the vertex back: `create_from_struct (get_struct v) = some v`. -/
theorem vertex_serialization_roundtrip (v : Vertex) (h : WFVertex v) :
    create_from_struct (get_struct v) = some v := by
  obtain ⟨hver, htlen, htok, hilen, hin, holen, hout, ⟨hwlen, _⟩, hts, hplen, hpar, hnonce⟩ := h
  rw [create_from_struct, get_struct, get_funds_struct, get_graph_struct]
  simp only [List.append_assoc]
  rw [readNatBE_encode 2 _ _ (by norm_num at hver ⊢; omega)]
  simp only [Option.some_bind]
  rw [readNatBE_encode 1 _ _ (by norm_num; omega)]
  simp only [Option.some_bind]
  have htokflat : v.tokens.flatten = (v.tokens.map id).flatten := by simp
  rw [htokflat, readList_encode (readBytes 32) id v.tokens _
    (fun t ht r => readBytes_exact 32 t r (htok t ht).1)]
  simp only [Option.some_bind]
  rw [readNatBE_encode 1 _ _ (by norm_num; omega)]
  simp only [Option.some_bind]
  rw [readList_encode parseInput serializeInput v.inputs _
    (fun i hi r => parseInput_round i r (hin i hi))]
  simp only [Option.some_bind]
  rw [readNatBE_encode 1 _ _ (by norm_num; omega)]
  simp only [Option.some_bind]
  rw [readList_encode parseOutput serializeOutput v.outputs _
    (fun o ho r => parseOutput_round o r (hout o ho))]
  simp only [Option.some_bind]
  rw [readBytes_exact _ _ _ hwlen]
  simp only [Option.some_bind]
  rw [readNatBE_encode 8 _ _ (by norm_num at hts ⊢; omega)]
  simp only [Option.some_bind]
  rw [readNatBE_encode 1 _ _ (by norm_num; omega)]
  simp only [Option.some_bind]
  have hparflat : v.parents.flatten = (v.parents.map id).flatten := by simp
  rw [hparflat, readList_encode (readBytes 32) id v.parents _
    (fun p hp r => readBytes_exact 32 p r (hpar p hp).1)]
  simp only [Option.some_bind]
  rw [readNatBE_encode_nil 16 _ (by norm_num at hnonce ⊢; omega)]
  simp only [Option.some_bind]
  simp

/-- A concrete well-formed vertex used as the round-trip witness. -/
def sampleVertex : Vertex :=
  { version := 1
    tokens := [List.replicate 32 7]
    inputs := [⟨List.replicate 32 3, 0, [5, 6]⟩]
    outputs := [⟨100, [1, 2], 0⟩, ⟨2 ^ 32, [], 129⟩]
    weight := [64, 49, 0, 0, 0, 0, 0, 0]
    timestamp := 1572653259
    parents := [List.replicate 32 1, List.replicate 32 2]
    nonce := 84242 }

/-- C4 witness: the round trip evaluated at a concrete well-formed vertex. -/
theorem vertex_serialization_roundtrip_witness :
    WFVertex sampleVertex ∧
      create_from_struct (get_struct sampleVertex) = some sampleVertex :=
  ⟨by decide, vertex_serialization_roundtrip sampleVertex (by decide)⟩

/-! ## Timestamp rule -/

theorem foldr_max_le (l : List Nat) : ∀ x ∈ l, x ≤ l.foldr max 0 := by
  induction l with
  | nil => simp
  | cons a tl ih =>
    intro x hx
    rcases List.mem_cons.1 hx with rfl | hmem
    · exact le_max_left _ _
    · exact le_trans (ih x hmem) (le_max_right _ _)

theorem foldr_max_mem (l : List Nat) (h : l ≠ []) : l.foldr max 0 ∈ l := by
  induction l with
  | nil => exact absurd rfl h
  | cons a tl ih =>
    cases tl with
    | nil => simp
    | cons b tl2 =>
      rcases le_total a ((b :: tl2).foldr max 0) with h1 | h1
      · rw [List.foldr_cons, max_eq_right h1]
        exact List.mem_cons_of_mem _ (ih (by simp))
      · rw [List.foldr_cons, max_eq_left h1]
        exact List.mem_cons_self _ _

/-- C6: validation fails with `TimestampError` whenever the transaction's
timestamp is at most the maximum of its parents' and its inputs'
spent-tx timestamps, and the timestamp checks pass at that maximum plus
one. -/
theorem timestamp_rule (t : Nat) (pts sts : List Nat)
    (hne : pts ++ sts ≠ []) :
    (t ≤ (pts ++ sts).foldr max 0 →
      verify_timestamps ⟨t, pts, sts⟩ = .error "TimestampError") ∧
    (t = (pts ++ sts).foldr max 0 + 1 →
      verify_timestamps ⟨t, pts, sts⟩ = .ok ()) := by
  constructor
  · intro hle
    have hmem := foldr_max_mem _ hne
    rw [verify_timestamps, verify_parents_timestamps]
    rcases List.mem_append.1 hmem with hp | hs
    · rw [if_neg (fun hall => by
        have := List.all_eq_true.1 hall _ hp
        simp only [decide_eq_true_eq] at this
        omega)]
      rfl
    · by_cases hall : pts.all (· < t) = true
      · rw [if_pos hall]
        show verify_inputs_timestamps ⟨t, pts, sts⟩ = .error "TimestampError"
        rw [verify_inputs_timestamps, if_neg (fun hall2 => by
          have := List.all_eq_true.1 hall2 _ hs
          simp only [decide_eq_true_eq] at this
          omega)]
      · rw [if_neg hall]
        rfl
  · intro ht
    have hall : ∀ x ∈ pts ++ sts, x < t := by
      intro x hx
      have := foldr_max_le _ x hx
      omega
    rw [verify_timestamps, verify_parents_timestamps, if_pos]
    · rw [verify_inputs_timestamps, if_pos]
      · rfl
      · exact List.all_eq_true.2 fun x hx => by
          simp
          exact hall x (List.mem_append.2 (Or.inr hx))
    · exact List.all_eq_true.2 fun x hx => by
        simp
        exact hall x (List.mem_append.2 (Or.inl hx))

/-- C6 witness: the rule evaluated at concrete inputs (max is 7). -/
theorem timestamp_rule_witness :
    verify_timestamps ⟨7, [5], [7]⟩ = .error "TimestampError" ∧
      verify_timestamps ⟨8, [5], [7]⟩ = .ok () :=
  ⟨(timestamp_rule 7 [5] [7] (by decide)).1 (by decide),
   (timestamp_rule 8 [5] [7] (by decide)).2 (by decide)⟩

/-! ## OP_CHECKMULTISIG -/

theorem except_ok_bind {ε α β : Type} (a : α) (f : α → Except ε β) :
    (Except.ok a : Except ε α).bind f = f a := rfl

theorem matchSigs_true_iff (S P : List (List Nat)) :
    matchSigs verifyEq S P = true ↔ S.Sublist P := by
  induction P generalizing S with
  | nil =>
    cases S with
    | nil => simp [matchSigs]
    | cons s ss => simp [matchSigs]
  | cons k ks ih =>
    cases S with
    | nil => simp [matchSigs]
    | cons s ss =>
      rw [matchSigs]
      by_cases hsk : s = k
      · subst hsk
        rw [if_pos (by simp [verifyEq]), ih]
        constructor
        · exact fun h => h.cons_cons s
        · intro h
          rcases List.cons_sublist_cons'.1 h with h' | ⟨_, h'⟩
          · exact (List.sublist_of_cons_sublist h')
          · exact h'
      · rw [if_neg (by simp [verifyEq, hsk]), ih]
        constructor
        · exact fun h => h.cons k
        · intro h
          rcases List.cons_sublist_cons'.1 h with h' | ⟨heq, _⟩
          · exact h'
          · exact absurd heq hsk

theorem popBlobs_blobs (l : List (List Nat)) (rest : List StackItem) :
    popBlobs l.length (l.map StackItem.blob ++ rest) = .ok (l, rest) := by
  induction l with
  | nil => rfl
  | cons b tl ih => simp [popBlobs, ih, Except.map]

/-- C7: on a well-shaped M-of-N stack checked with exact-match signature
verification, OP_CHECKMULTISIG never raises: it pushes 1 when the
signatures appear in the same order as their matching public keys (the
signature list is an in-order sublist of the public-key list) and pushes 0
otherwise — in particular when all signatures are valid but out of order. -/
theorem checkmultisig_order (pks sigs : List (List Nat))
    (rest : List StackItem) :
    op_checkmultisig verifyEq (multisigStack pks sigs rest) =
      .ok ((if sigs.Sublist pks then StackItem.num 1
            else StackItem.num 0) :: rest) := by
  rw [op_checkmultisig, multisigStack]
  simp only [popCount, except_ok_bind]
  rw [← List.length_reverse pks, popBlobs_blobs]
  simp only [popCount, except_ok_bind]
  rw [← List.length_reverse sigs, popBlobs_blobs]
  simp only [except_ok_bind]
  rw [List.reverse_reverse, List.reverse_reverse]
  by_cases h : sigs.Sublist pks
  · rw [if_pos ((matchSigs_true_iff _ _).2 h), if_pos h]
  · rw [if_neg (fun hb => h ((matchSigs_true_iff _ _).1 hb)), if_neg h]

/-- C5: output values in [1, 2^31−1] are encoded in 4 bytes and values from
2^31 up in 8 bytes; encoding 2^31−1 gives exactly 4 bytes and 2^31 exactly
8 bytes, decoding inverts both, and decoding an 8-byte encoding of a value
that fits in 4 bytes (here 1, encoded as two's-complement −1) fails with an
error. -/
theorem output_value_boundary :
    (output_value_to_bytes (2 ^ 31 - 1)).length = 4 ∧
    (output_value_to_bytes (2 ^ 31)).length = 8 ∧
    bytes_to_output_value (output_value_to_bytes (2 ^ 31 - 1)) =
      .ok (2 ^ 31 - 1, []) ∧
    bytes_to_output_value (output_value_to_bytes (2 ^ 31)) = .ok (2 ^ 31, []) ∧
    bytes_to_output_value (natToBytesBE 8 (2 ^ 64 - 1)) =
      .error "Value fits in 4 bytes but is using 8 bytes" := by
  exact ⟨rfl, rfl, rfl, rfl, rfl⟩

/-! ## Compact storage -/

/-- C8: `get_transaction` raises `TransactionDoesNotExist` exactly on a
hash that is not genesis, not cached, and has no persisted record; a
genesis hash returns the resident vertex unchanged, and a persisted hash
returns the loaded vertex (caching it). -/
theorem get_transaction_spec (s : StorageState) (h : Nat) :
    (get_genesis s h = none → get_transaction_from_weakref s h = none →
      fileRecord s h = none →
      get_transaction s h = .error "TransactionDoesNotExist") ∧
    (∀ g, get_genesis s h = some g → get_transaction s h = .ok (g, s)) ∧
    (∀ tx, get_genesis s h = none → get_transaction_from_weakref s h = none →
      fileRecord s h = some tx →
      get_transaction s h =
        .ok (tx, { s with weakrefs := tx :: s.weakrefs })) := by
  refine ⟨fun h1 h2 h3 => ?_, fun g h1 => ?_, fun tx h1 h2 h3 => ?_⟩
  · unfold get_transaction
    rw [h1, h2, h3]
  · unfold get_transaction
    rw [h1]
  · unfold get_transaction
    rw [h1, h2, h3]

/-- A concrete storage state: one genesis vertex, one persisted record,
empty cache. -/
def sampleStorage : StorageState :=
  { genesisTxs := [⟨1, 10⟩], files := [⟨2, 20⟩], weakrefs := [] }

/-- C8 witness: the three cases evaluated on `sampleStorage`. -/
theorem get_transaction_spec_witness :
    get_transaction sampleStorage 3 = .error "TransactionDoesNotExist" ∧
      get_transaction sampleStorage 1 = .ok (⟨1, 10⟩, sampleStorage) ∧
      get_transaction sampleStorage 2 =
        .ok (⟨2, 20⟩, { sampleStorage with weakrefs := [⟨2, 20⟩] }) :=
  ⟨(get_transaction_spec sampleStorage 3).1 (by decide) (by decide) (by decide),
   (get_transaction_spec sampleStorage 1).2.1 ⟨1, 10⟩ (by decide),
   (get_transaction_spec sampleStorage 2).2.2 ⟨2, 20⟩ (by decide) (by decide)
     (by decide)⟩

/-- C9: saving a resident genesis vertex writes nothing: both
`save_transaction` and `_save_transaction` leave the state (in particular
the persisted files) unchanged, while `transaction_exists` still reports
it and `get_transaction` still returns it from memory. -/
theorem genesis_never_written (s : StorageState) (g : Tx)
    (hg : get_genesis s g.hash = some g) :
    save_transaction s g = s ∧ save_transaction_file s g = s ∧
      transaction_exists s g.hash = true ∧
      get_transaction s g.hash = .ok (g, s) := by
  have hgen : is_genesis s g = true := by
    rw [is_genesis, hg]
    rfl
  refine ⟨?_, ?_, ?_, ?_⟩
  · rw [save_transaction, if_pos hgen]
  · rw [save_transaction_file, if_pos hgen]
  · rw [transaction_exists, hg]
    rfl
  · unfold get_transaction
    rw [hg]

/-- C9 witness: evaluated at the genesis vertex of `sampleStorage`. -/
theorem genesis_never_written_witness :
    save_transaction sampleStorage ⟨1, 10⟩ = sampleStorage ∧
      save_transaction_file sampleStorage ⟨1, 10⟩ = sampleStorage ∧
      transaction_exists sampleStorage 1 = true ∧
      get_transaction sampleStorage 1 = .ok (⟨1, 10⟩, sampleStorage) :=
  genesis_never_written sampleStorage ⟨1, 10⟩ (by decide)

/-! ## Consensus -/

/-- C1: in the low-weight-confirmation scenario, T1 (hash 20) and T2
(hash 21) conflict and are both voided before B arrives; B (hash 30,
weight 2) confirms T2 while the best chain is heavier, and after consensus
T1 and T2 remain voided, B is voided with `voided_by = {T2.hash}`
propagated from the conflicting transaction, and the best head is
unchanged. -/
theorem low_weight_block_no_revert :
    voided_by_of (runConsensus (scenarioDag.take 7)) 20 = [20] ∧
    voided_by_of (runConsensus (scenarioDag.take 7)) 21 = [21] ∧
    (runConsensus (scenarioDag.take 7)).bestHead = some 11 ∧
    voided_by_of (runConsensus scenarioDag) 20 = [20] ∧
    voided_by_of (runConsensus scenarioDag) 21 = [21] ∧
    voided_by_of (runConsensus scenarioDag) 30 = [21] ∧
    (runConsensus scenarioDag).bestHead = some 11 := by
  exact ⟨rfl, rfl, rfl, rfl, rfl, rfl, rfl⟩

/-- C2: a vertex is executed exactly when its `voided_by` is empty, for
every DAG the engine processes and every vertex; on the concrete scenario
the genesis vertices and the heavy chain are executed while T1, T2 and B
are voided. -/
theorem voided_by_empty_iff_executed :
    (∀ (dag : List VertexInfo) (h : Nat),
      is_executed (runConsensus dag) h = true ↔
        voided_by_of (runConsensus dag) h = []) ∧
    scenarioDag.map (fun v => is_executed (runConsensus scenarioDag) v.hash) =
      [true, true, true, true, true, false, false, false] := by
  constructor
  · intro dag h
    simp [is_executed]
  · rfl

/-! ## Rate limiter -/

theorem if_lt_zero_eq_max (x : ℚ) : (if x < 0 then (0 : ℚ) else x) = max 0 x := by
  rcases lt_or_le x 0 with h | h
  · rw [if_pos h, max_eq_left h.le]
  · rw [if_neg (not_lt.2 h), max_eq_right h]

theorem all_filter_of_all {α : Type} (l : List α) (p q : α → Bool)
    (h : l.all p = true) : (l.filter q).all p = true := by
  rw [List.all_eq_true] at h ⊢
  exact fun x hx => h x (List.mem_of_mem_filter hx)

theorem hitsBounded_set (rl : RateLimiterState) (key : String) (v : ℚ × ℚ)
    (m wnd : Nat) (hk : List.lookup key rl.keys = some (m, wnd))
    (hb : hitsBounded rl = true) (hv : v.1 ≤ (m : ℚ)) :
    hitsBounded { rl with hits := setAssoc rl.hits key v } = true := by
  unfold hitsBounded at hb ⊢
  simp only [setAssoc, List.all_cons, Bool.and_eq_true]
  constructor
  · simp only [hk]
    exact decide_eq_true hv
  · exact all_filter_of_all _ _ _ hb

theorem add_hit_keys (rl : RateLimiterState) (key : String) (w : Nat)
    (now : ℚ) : ((add_hit rl key w now).2).keys = rl.keys := by
  unfold add_hit
  cases hk : List.lookup key rl.keys with
  | none => rfl
  | some p =>
    obtain ⟨m, wnd⟩ := p
    cases hh : List.lookup key rl.hits with
    | none => rfl
    | some q =>
      obtain ⟨hits, latest⟩ := q
      dsimp only
      simp only [if_lt_zero_eq_max]
      split <;> rfl

theorem add_hit_bounded (rl : RateLimiterState) (key : String) (w : Nat)
    (now : ℚ) (hb : hitsBounded rl = true)
    (hw : ∀ m wnd, List.lookup key rl.keys = some (m, wnd) → w ≤ m) :
    hitsBounded (add_hit rl key w now).2 = true := by
  unfold add_hit
  cases hk : List.lookup key rl.keys with
  | none => exact hb
  | some p =>
    obtain ⟨m, wnd⟩ := p
    have hwm : (w : ℚ) ≤ (m : ℚ) := by exact_mod_cast hw m wnd hk
    cases hh : List.lookup key rl.hits with
    | none =>
      dsimp only
      exact hitsBounded_set rl key ((w : ℚ), now) m wnd hk hb hwm
    | some q =>
      obtain ⟨hits, latest⟩ := q
      dsimp only
      simp only [if_lt_zero_eq_max]
      split
      · exact hitsBounded_set rl key _ m wnd hk hb (le_refl _)
      · next hle =>
        exact hitsBounded_set rl key _ m wnd hk hb (not_lt.1 hle)

theorem run_hits_bounded (ops : List (String × Nat × ℚ))
    (rl : RateLimiterState) (hb : hitsBounded rl = true)
    (hops : opsWeightsOk rl.keys ops = true) :
    hitsBounded (run_hits rl ops) = true := by
  induction ops generalizing rl with
  | nil => exact hb
  | cons op tl ih =>
    rw [opsWeightsOk, List.all_cons, Bool.and_eq_true] at hops
    obtain ⟨hop, htl⟩ := hops
    simp only [run_hits, List.foldl_cons]
    apply ih
    · apply add_hit_bounded _ _ _ _ hb
      intro m wnd hk
      rw [hk] at hop
      exact of_decide_eq_true hop
    · rw [add_hit_keys]
      exact htl

/-- C10: a key without a limit is always allowed and leaves the state
untouched; from any bounded state, a sequence of hits whose weights
respect each key's limit keeps every recorded bucket at or below its
limit; and for a limited key with a recorded bucket, `add_hit` returns
`False` exactly when the leaked bucket plus the new weight would exceed
`max_hits`, in which case the recorded count saturates at `max_hits`. -/
theorem rate_limiter_add_hit_spec :
    (∀ (rl : RateLimiterState) (key : String) (w : Nat) (now : ℚ),
      List.lookup key rl.keys = none → add_hit rl key w now = (true, rl)) ∧
    (∀ (rl : RateLimiterState) (ops : List (String × Nat × ℚ)),
      hitsBounded rl = true → opsWeightsOk rl.keys ops = true →
      hitsBounded (run_hits rl ops) = true) ∧
    (∀ (rl : RateLimiterState) (key : String) (w : Nat) (now : ℚ)
      (m wnd : Nat) (hits latest : ℚ),
      List.lookup key rl.keys = some (m, wnd) →
      List.lookup key rl.hits = some (hits, latest) →
      (((add_hit rl key w now).1 = false) ↔
        (m : ℚ) < max 0 (hits - ⌊(now - latest) * m / wnd⌋) + w) ∧
      ((add_hit rl key w now).1 = false →
        (List.lookup key (add_hit rl key w now).2.hits).map Prod.fst =
          some (m : ℚ))) := by
  refine ⟨fun rl key w now hk => ?_, fun rl ops hb hops =>
    run_hits_bounded ops rl hb hops, fun rl key w now m wnd hits latest hk hh => ?_⟩
  · simp only [add_hit, hk]
  · simp only [add_hit, hk, hh, if_lt_zero_eq_max]
    split
    · next hgt =>
      refine ⟨⟨fun _ => hgt, fun _ => rfl⟩, fun _ => ?_⟩
      simp [setAssoc, List.lookup]
    · next hle =>
      exact ⟨⟨fun habs => absurd habs (by simp), fun hlt => absurd hlt hle⟩,
        fun habs => absurd habs (by simp)⟩

/-- C10 witness: a concrete limited key saturating at its limit, plus an
unlimited key. -/
theorem rate_limiter_add_hit_spec_witness :
    add_hit ⟨[("a", 2, 10)], []⟩ "b" 5 0 = (true, ⟨[("a", 2, 10)], []⟩) ∧
      hitsBounded (run_hits ⟨[("a", 2, 10)], []⟩
        [("a", 1, 0), ("a", 2, 1), ("a", 1, 2)]) = true ∧
      ((add_hit ⟨[("a", 2, 10)], [("a", 2, 0)]⟩ "a" 1 1).1 = false ↔
        (2 : ℚ) < max 0 ((2 : ℚ) - ⌊((1 : ℚ) - 0) * 2 / 10⌋) + 1) :=
  ⟨rate_limiter_add_hit_spec.1 ⟨[("a", 2, 10)], []⟩ "b" 5 0 (by decide),
   rate_limiter_add_hit_spec.2.1 ⟨[("a", 2, 10)], []⟩
     [("a", 1, 0), ("a", 2, 1), ("a", 1, 2)] (by decide) (by decide),
   (rate_limiter_add_hit_spec.2.2 ⟨[("a", 2, 10)], [("a", 2, 0)]⟩ "a" 1 1 2 10
     2 0 (by decide) (by decide)).1⟩

/-! ## Difficulty adjustment -/

theorem two_rpow_pos (x : ℝ) : 0 < (2 : ℝ) ^ x := Real.rpow_pos_of_pos two_pos x

theorem sum_weights_comm (a b : ℝ) : sum_weights a b = sum_weights b a := by
  rw [sum_weights, sum_weights, max_comm, abs_sub_comm]

theorem sum_weights_eq (a b : ℝ) :
    sum_weights a b = Real.logb 2 ((2 : ℝ) ^ a + (2 : ℝ) ^ b) := by
  have key : ∀ x y : ℝ, x ≤ y →
      sum_weights x y = Real.logb 2 ((2 : ℝ) ^ x + (2 : ℝ) ^ y) := by
    intro x y hxy
    have h1 : -|x - y| = x - y := by
      rw [abs_of_nonpos (by linarith)]
      ring
    have h2 : (2 : ℝ) ^ x + 2 ^ y = 2 ^ y * (1 + 2 ^ (x - y)) := by
      rw [mul_add, mul_one, ← Real.rpow_add two_pos]
      ring_nf
    rw [sum_weights, max_eq_right hxy, h1, h2,
      Real.logb_mul (ne_of_gt (two_rpow_pos y)) (by positivity),
      Real.logb_rpow two_pos (by norm_num)]
  rcases le_total a b with hab | hab
  · exact key a b hab
  · rw [sum_weights_comm, key b a hab, add_comm]

theorem foldl_sum_weights (ws : List ℝ) (x : ℝ) (hx : 0 < x) :
    ws.foldl sum_weights (Real.logb 2 x) =
      Real.logb 2 (x + (ws.map (fun w => (2 : ℝ) ^ w)).sum) := by
  induction ws generalizing x with
  | nil => simp
  | cons w tl ih =>
    rw [List.foldl_cons, sum_weights_eq,
      Real.rpow_logb two_pos (by norm_num) hx, ih (x + 2 ^ w) (by positivity)]
    congr 1
    simp only [List.map_cons, List.sum_cons]
    ring

theorem foldl_sum_weights_zero (ws : List ℝ) :
    ws.foldl sum_weights 0 =
      Real.logb 2 (1 + (ws.map (fun w => (2 : ℝ) ^ w)).sum) := by
  have h := foldl_sum_weights ws 1 one_pos
  rwa [Real.logb_one] at h

theorem ite_clamp (w c d : ℝ) (hd : 0 ≤ d) :
    (if d < w - c then c + d else if w - c < -d then c - d else w) =
      max (c - d) (min (c + d) w) := by
  split_ifs with h1 h2
  · rw [min_eq_left (by linarith), max_eq_right (by linarith)]
  · rw [min_eq_right (by linarith), max_eq_left (by linarith)]
  · rw [min_eq_right (by linarith), max_eq_right (by linarith)]

theorem ite_min_clamp (w m : ℝ) : (if w < m then m else w) = max m w := by
  split_ifs with h
  · rw [max_eq_left h.le]
  · rw [max_eq_right (not_lt.1 h)]

theorem ite_int_max (x : ℤ) : (if x < 1 then 1 else x) = max 1 x := by
  split_ifs with h
  · rw [max_eq_left h.le]
  · rw [max_eq_right (not_lt.1 h)]

theorem headD_getD {α : Type} (l : List α) (d : α) : l.headD d = l.head?.getD d := by
  cases l <;> rfl

theorem headD_reverse {α : Type} (l : List α) (d : α) :
    l.reverse.headD d = l.getLastD d := by
  rw [headD_getD, List.head?_reverse, List.getLastD_eq_getLast?]

theorem getLastD_reverse {α : Type} (l : List α) (d : α) :
    l.reverse.getLastD d = l.headD d := by
  rw [List.getLastD_eq_getLast?, List.getLast?_reverse, headD_getD]

theorem headD_map {α β : Type} (f : α → β) (l : List α) (hl : l ≠ [])
    (d : β) (d' : α) : (l.map f).headD d = f (l.headD d') := by
  cases l with
  | nil => exact absurd rfl hl
  | cons a t => rfl

theorem getLastD_map {α β : Type} (f : α → β) (l : List α) (hl : l ≠ [])
    (d : β) (d' : α) : (l.map f).getLastD d = f (l.getLastD d') := by
  rw [← headD_reverse, ← List.map_reverse, headD_map f l.reverse (by simpa) d d',
    headD_reverse]

theorem next_weight_eq_amended_general (blocks : List (ℤ × ℝ))
    (h2 : 2 ≤ (blocks.take HTR_N).length) :
    HTR_next_weight blocks = next_weight_amended blocks := by
  have hne : blocks.take HTR_N ≠ [] := by
    intro h
    rw [h] at h2
    simp at h2
  have hner : (blocks.take HTR_N).reverse ≠ [] := by simpa using hne
  simp only [HTR_next_weight, next_weight_amended]
  rw [if_neg (by rw [List.length_reverse]; omega)]
  rw [getLastD_map (fun p : ℤ × ℝ => p.1) _ hner 0 (0, 0),
    headD_map (fun p : ℤ × ℝ => p.1) _ hner 0 (0, 0),
    getLastD_map (fun p : ℤ × ℝ => p.2) _ hner 0 (0, 0),
    getLastD_reverse, headD_reverse]
  rw [foldl_sum_weights_zero, ite_int_max]
  rw [List.map_map, List.map_reverse, List.sum_reverse]
  rw [ite_clamp _ _ _ (by norm_num [HTR_MAX_DW]), ite_min_clamp]
  rfl

theorem two_pow_25_sum : (2 : ℝ) ^ (25 : ℝ) + 2 ^ (25 : ℝ) = 2 ^ (26 : ℝ) := by
  rw [show (26 : ℝ) = 25 + 1 by norm_num, Real.rpow_add two_pos, Real.rpow_one]
  ring

theorem logb_sixty : Real.logb 2 (60 : ℝ) = 1 + Real.logb 2 30 := by
  rw [show (60 : ℝ) = 2 * 30 by norm_num,
    Real.logb_mul two_ne_zero (by norm_num),
    Real.logb_self_eq_one one_lt_two]

theorem claimed_eval : next_weight_claimed cexBlocks = 25 := by
  have htake : List.take HTR_N cexBlocks = cexBlocks := rfl
  have hh : cexBlocks.headD (0, 0) = (100, 25) := rfl
  have hl : cexBlocks.getLastD (0, 0) = (40, 25) := rfl
  have hmap : cexBlocks.map (fun p => (2 : ℝ) ^ p.2) =
      [(2 : ℝ) ^ (25 : ℝ), (2 : ℝ) ^ (25 : ℝ)] := rfl
  simp only [next_weight_claimed, htake, hh, hl, hmap, List.sum_cons,
    List.sum_nil, add_zero]
  rw [two_pow_25_sum, Real.logb_rpow two_pos (by norm_num)]
  norm_num [HTR_T, HTR_MAX_DW, HTR_MIN_WEIGHT]
  rw [logb_sixty]
  have harith : (26 : ℝ) - (1 + Real.logb 2 30) + Real.logb 2 30 = 25 := by ring
  rw [harith]
  rw [min_eq_right (by norm_num), max_eq_right (by norm_num)]

theorem amended_eval : next_weight_amended cexBlocks =
    max (99 / 4) (min (101 / 4) (Real.logb 2 (1 + 2 ^ (26 : ℝ)) - 1)) := by
  have htake : List.take HTR_N cexBlocks = cexBlocks := rfl
  have hh : cexBlocks.headD (0, 0) = (100, 25) := rfl
  have hl : cexBlocks.getLastD (0, 0) = (40, 25) := rfl
  have hmap : List.map (fun p => (2 : ℝ) ^ p.2) cexBlocks =
      [(2 : ℝ) ^ (25 : ℝ), (2 : ℝ) ^ (25 : ℝ)] := rfl
  simp only [next_weight_amended, htake, hh, hl, hmap, List.sum_cons,
    List.sum_nil, add_zero]
  rw [two_pow_25_sum]
  set W := Real.logb 2 (1 + 2 ^ (26 : ℝ)) with hWdef
  norm_num [HTR_T, HTR_MAX_DW, HTR_MIN_WEIGHT]
  rw [logb_sixty]
  have harith2 : W - (1 + Real.logb 2 30) + Real.logb 2 30 = W - 1 := by ring
  rw [harith2]

/-- C3 counterexample: on the concrete two-block window the code's result
differs from the claim's formula `W = log2(Σ 2^{w_i})` — the fold's `0.0`
seed contributes an extra `2^0` term, and no clamp hides the difference. -/
theorem next_weight_counterexample :
    HTR_next_weight cexBlocks ≠ next_weight_claimed cexBlocks := by
  rw [next_weight_eq_amended_general cexBlocks (by decide), amended_eval,
    claimed_eval]
  intro heq
  rcases max_choice ((99 : ℝ) / 4)
    (min ((101 : ℝ) / 4) (Real.logb 2 (1 + 2 ^ (26 : ℝ)) - 1)) with h | h
  · rw [h] at heq
    norm_num at heq
  · rw [h] at heq
    rcases min_choice ((101 : ℝ) / 4) (Real.logb 2 (1 + 2 ^ (26 : ℝ)) - 1)
      with h2 | h2
    · rw [h2] at heq
      norm_num at heq
    · rw [h2] at heq
      have hW : Real.logb 2 (1 + 2 ^ (26 : ℝ)) = 26 := by linarith
      have hpos : (0 : ℝ) < 1 + 2 ^ (26 : ℝ) := by positivity
      have hcontra := (Real.logb_eq_iff_rpow_eq two_pos (by norm_num) hpos).1 hW
      linarith

/-- C3 (amended): for every block iterator yielding at least two of the
last N=20 blocks, `HTR.next_weight` equals the claim's clamped formula
with the window term corrected to `W = log2(1 + Σ 2^{w_i})`: the source
folds `sum_weights` starting from `0.0`, which contributes an extra
`2^0 = 1` to the window sum. -/
theorem next_weight_formula (blocks : List (ℤ × ℝ))
    (h2 : 2 ≤ (blocks.take HTR_N).length) :
    HTR_next_weight blocks = next_weight_amended blocks :=
  next_weight_eq_amended_general blocks h2

/-- C3 witness: the corrected formula evaluated at the concrete two-block
window. -/
theorem next_weight_formula_witness :
    2 ≤ (cexBlocks.take HTR_N).length ∧
      HTR_next_weight cexBlocks = next_weight_amended cexBlocks :=
  ⟨by decide, next_weight_formula cexBlocks (by decide)⟩

end Hathor
